import Mathlib

/-!
Shallow embedding of the zkSync mempool core
(`src/core/bin/zksync_core/src/mempool.rs`).

Rust `HashMap` is embedded as an association list with key-based lookup,
insert-with-overwrite and erase; `VecDeque` as a `List` with `push_back`
(append at the end), `pop_front` (head) and `push_front` (cons).  Machine
integers (`u32` nonces, `usize` chunk counts) are embedded as `Nat`: the
mempool only compares and copies them, so no overflow is observable in the
properties considered here.
-/

namespace ZkMempool

abbrev Address := Nat
abbrev Nonce := Nat
abbrev AccountId := Nat

/-- Key-based lookup in an association-list map (embeds `HashMap::get`). -/
def findA {β : Type} : List (Nat × β) → Nat → Option β
  | [], _ => none
  | (k, v) :: rest, key => if k = key then some v else findA rest key

/-- Insert-with-overwrite (embeds `HashMap::insert`): replaces the first
binding of the key, or appends a fresh binding. -/
def insertA {β : Type} : List (Nat × β) → Nat → β → List (Nat × β)
  | [], k, v => [(k, v)]
  | (k', v') :: rest, k, v =>
    if k' = k then (k, v) :: rest else (k', v') :: insertA rest k v

/-- Removal of a key's binding (embeds `HashMap::remove`). -/
def eraseA {β : Type} : List (Nat × β) → Nat → List (Nat × β)
  | [], _ => []
  | (k', v') :: rest, k => if k' = k then rest else (k', v') :: eraseA rest k

/-- Embeds `HashMap::contains_key`. -/
def containsA {β : Type} (m : List (Nat × β)) (k : Nat) : Bool :=
  (findA m k).isSome

/-- Fixed chunk cost of a transfer to an already-known account.
Modelled from the spec: the constant `TransferOp::CHUNKS` lives in
`zksync_types`, outside the given sources; the spec fixes only that it is
smaller than the transfer-to-new cost. -/
def TransferOp_CHUNKS : Nat := 2

/-- Fixed chunk cost of a transfer to a fresh account.
Modelled from the spec: `TransferToNewOp::CHUNKS` lives in `zksync_types`;
the spec's scenarios use 6-chunk transfers to new accounts. -/
def TransferToNewOp_CHUNKS : Nat := 6

/-- Fixed chunk cost of a withdrawal (`WithdrawOp::CHUNKS`), modelled from
the spec's "fixed integer cost per operation kind". -/
def WithdrawOp_CHUNKS : Nat := 6

/-- Fixed chunk cost of a change-pubkey operation (`ChangePubKeyOp::CHUNKS`),
modelled from the spec's "fixed integer cost per operation kind". -/
def ChangePubKeyOp_CHUNKS : Nat := 6

/-- The transaction kinds the mempool distinguishes (`ZkSyncTx`): a
transfer carries the recipient address used by the two-cost rule; every
kind carries the submitter address and its nonce. -/
inductive ZkSyncTx where
  | Transfer (sender : Address) (to_addr : Address) (nonce : Nonce)
  | Withdraw (sender : Address) (nonce : Nonce)
  | ChangePubKey (sender : Address) (nonce : Nonce)
deriving DecidableEq, Repr

/-- Embeds `ZkSyncTx::nonce`. -/
def ZkSyncTx.nonce : ZkSyncTx → Nonce
  | .Transfer _ _ n => n
  | .Withdraw _ n => n
  | .ChangePubKey _ n => n

/-- Embeds `ZkSyncTx::account`: the submitter address. -/
def ZkSyncTx.account : ZkSyncTx → Address
  | .Transfer a _ _ => a
  | .Withdraw a _ => a
  | .ChangePubKey a _ => a

/-- Embeds `ZkSyncTx::is_withdraw`. -/
def ZkSyncTx.is_withdraw : ZkSyncTx → Bool
  | .Withdraw _ _ => true
  | _ => false

/-- Embeds `ZkSyncTx::min_chunks` (the per-kind fixed chunk cost used for
every non-transfer kind), modelled from the spec for the constants. -/
def ZkSyncTx.min_chunks : ZkSyncTx → Nat
  | .Transfer _ _ _ => TransferOp_CHUNKS
  | .Withdraw _ _ => WithdrawOp_CHUNKS
  | .ChangePubKey _ _ => ChangePubKeyOp_CHUNKS

/-- Embeds `SignedZkSyncTx`: the signature data is irrelevant to the
mempool (it never re-verifies signatures), so only the inner `tx` field is
kept. -/
structure SignedZkSyncTx where
  tx : ZkSyncTx
deriving DecidableEq, Repr

/-- Embeds `SignedZkSyncTx::nonce`. -/
def SignedZkSyncTx.nonce (t : SignedZkSyncTx) : Nonce := t.tx.nonce

/-- Embeds `SignedZkSyncTx::account`. -/
def SignedZkSyncTx.account (t : SignedZkSyncTx) : Address := t.tx.account

/-- Embeds `SignedTxsBatch`; the optional Ethereum signature is kept
abstractly as an optional number. -/
structure SignedTxsBatch where
  txs : List SignedZkSyncTx
  batch_id : Nat
  eth_signature : Option Nat
deriving DecidableEq, Repr

/-- Embeds `SignedTxVariant`: a queue element is a single transaction or an
atomic batch. -/
inductive SignedTxVariant where
  | Tx (tx : SignedZkSyncTx)
  | Batch (batch : SignedTxsBatch)
deriving DecidableEq, Repr

/-- Embeds `TxAddError`. -/
inductive TxAddError where
  | NonceMismatch
  | IncorrectTx
  | TxFeeTooLow
  | TxBatchFeeTooLow
  | EIP1271SignatureVerificationFail
  | MissingEthSignature
  | IncorrectEthSignature
  | ChangePkNotAuthorized
  | Other
  | DbError
  | EmptyBatch
  | BatchTooBig
  | BatchWithdrawalsOverload
deriving DecidableEq, Repr

/-- Embeds `MempoolState`: committed nonces by address, the id-to-address
indirection, and the FIFO of ready transaction variants. -/
structure MempoolState where
  account_nonces : List (Address × Nonce)
  account_ids : List (AccountId × Address)
  ready_txs : List SignedTxVariant
deriving DecidableEq, Repr

/-- Embeds `MempoolState::nonce`:
`*self.account_nonces.get(address).unwrap_or(&0)`. -/
def MempoolState.nonce (s : MempoolState) (address : Address) : Nonce :=
  (findA s.account_nonces address).getD 0

/-- Embeds `MempoolState::chunks_for_tx`: a transfer costs
`TransferOp::CHUNKS` when the recipient is a key of `account_nonces` and
`TransferToNewOp::CHUNKS` otherwise; any other kind costs `min_chunks`. -/
def MempoolState.chunks_for_tx (s : MempoolState) (tx : ZkSyncTx) : Nat :=
  match tx with
  | .Transfer _ to_addr _ =>
    if containsA s.account_nonces to_addr then TransferOp_CHUNKS
    else TransferToNewOp_CHUNKS
  | t => t.min_chunks

/-- Embeds `MempoolState::chunks_for_batch`: the sum of the members'
per-transaction chunk costs. -/
def MempoolState.chunks_for_batch (s : MempoolState) (batch : SignedTxsBatch) : Nat :=
  (batch.txs.map (fun tx => s.chunks_for_tx tx.tx)).sum

/-- Embeds `MempoolState::required_chunks`. -/
def MempoolState.required_chunks (s : MempoolState) (element : SignedTxVariant) : Nat :=
  match element with
  | .Tx tx => s.chunks_for_tx tx.tx
  | .Batch batch => s.chunks_for_batch batch

/-- Embeds `MempoolState::add_tx`: accept and push to the back of the
ready queue when `tx.nonce() >= self.nonce(&tx.account())`, else reject
with `NonceMismatch`; returns the result together with the updated state. -/
def MempoolState.add_tx (s : MempoolState) (tx : SignedZkSyncTx) :
    Except TxAddError Unit × MempoolState :=
  if tx.nonce ≥ s.nonce tx.account then
    (.ok (), { s with ready_txs := s.ready_txs ++ [.Tx tx] })
  else
    (.error .NonceMismatch, s)

/-- Embeds `MempoolState::add_batch`.  The `assert_ne!(batch.batch_id, 0)`
panic is embedded as `none`; otherwise the member-wise nonce check runs and
on success the batch is pushed to the back of the ready queue. -/
def MempoolState.add_batch (s : MempoolState) (batch : SignedTxsBatch) :
    Option (Except TxAddError Unit × MempoolState) :=
  if batch.batch_id = 0 then
    none
  else if batch.txs.any (fun tx => tx.nonce < s.nonce tx.account) then
    some (.error .NonceMismatch, s)
  else
    some (.ok (), { s with ready_txs := s.ready_txs ++ [.Batch batch] })

/-- Embeds a `PriorityOp` as its only mempool-relevant datum, the chunk
cost `op.data.chunks()`. -/
structure PriorityOp where
  chunks : Nat
deriving DecidableEq, Repr

/-- Embeds `ProposedBlock`. -/
structure ProposedBlock where
  priority_ops : List PriorityOp
  txs : List SignedTxVariant
deriving DecidableEq, Repr

/-- Summed chunk cost of a list of priority operations, as computed in
`MempoolBlocks::select_priority_ops`. -/
def prioChunks (ops : List PriorityOp) : Nat :=
  (ops.map PriorityOp.chunks).sum

/-- Embeds `MempoolBlocks::select_priority_ops` with the watcher's reply
given as an argument: returns the remaining chunk budget
(`max_block_size_chunks` minus the ops' summed chunks, truncated `usize`
subtraction) and the ops themselves. -/
def select_priority_ops (max_block_size_chunks : Nat) (priority_ops : List PriorityOp) :
    Nat × List PriorityOp :=
  (max_block_size_chunks - prioChunks priority_ops, priority_ops)

/-- The pop/push loop of `MempoolBlocks::prepare_tx_for_block`, recursing
over the ready queue: returns the final `chunks_left`, the popped variants
in pop order (`txs_for_commit`), and the queue that remains.  The chunk
costs are read from `s`, whose nonce maps the loop never changes. -/
def prepareGo (s : MempoolState) (chunks_left : Nat) :
    List SignedTxVariant → Nat × List SignedTxVariant × List SignedTxVariant
  | [] => (chunks_left, [], [])
  | tx :: rest =>
    let chunks_for_tx := s.required_chunks tx
    if chunks_left ≥ chunks_for_tx then
      let (l, taken, remaining) := prepareGo s (chunks_left - chunks_for_tx) rest
      (l, tx :: taken, remaining)
    else
      (chunks_left, [], tx :: rest)

/-- Embeds `MempoolBlocks::prepare_tx_for_block`: drains the front of the
ready queue under the chunk budget, pushing the first unfitting element
back to the front. -/
def prepare_tx_for_block (s : MempoolState) (chunks_left : Nat) :
    (Nat × List SignedTxVariant) × MempoolState :=
  let (l, taken, remaining) := prepareGo s chunks_left s.ready_txs
  ((l, taken), { s with ready_txs := remaining })

/-- Embeds `MempoolBlocks::propose_new_block` (the `GetBlock` handler) with
the watcher's reply given as an argument. -/
def propose_new_block (max_block_size_chunks : Nat) (priority_ops : List PriorityOp)
    (s : MempoolState) : ProposedBlock × MempoolState :=
  let (chunks_left, ops) := select_priority_ops max_block_size_chunks priority_ops
  let ((_, txs), s') := prepare_tx_for_block s chunks_left
  ({ priority_ops := ops, txs := txs }, s')

/-- Embeds `AccountUpdate`; only the fields `MempoolBlocks::run` reads are
kept (the account id travels alongside, as in `AccountUpdates`). -/
inductive AccountUpdate where
  | Create (address : Address) (nonce : Nonce)
  | Delete (address : Address)
  | UpdateBalance (new_nonce : Nonce)
  | ChangePubKeyHash (new_nonce : Nonce)
deriving DecidableEq, Repr

/-- Embeds one iteration of the `UpdateNonces` loop of
`MempoolBlocks::run`: `Create` inserts into both maps and `Delete`
removes from both, each under a single lock acquisition.  In the
`UpdateBalance` and `ChangePubKeyHash` arms the `if let` scrutinee
`self.mempool_state.lock().await.account_ids.get(&id)` keeps its
`MutexGuard` alive for the whole `if let` (the bound `address` borrows
from it), and the body re-locks the same non-reentrant
`tokio::sync::Mutex`: when the id lookup succeeds the task self-deadlocks
on the inner `lock().await` and the write `*nonce = new_nonce` is never
performed.  The deadlock is embedded as `none` (no successor state); only
the id-absent case completes, as a no-op. -/
def apply_update (s : MempoolState) (id : AccountId) (update : AccountUpdate) :
    Option MempoolState :=
  match update with
  | .Create address nonce =>
    some { s with account_ids := insertA s.account_ids id address
                  account_nonces := insertA s.account_nonces address nonce }
  | .Delete address =>
    some { s with account_ids := eraseA s.account_ids id
                  account_nonces := eraseA s.account_nonces address }
  | .UpdateBalance _ =>
    match findA s.account_ids id with
    | some _ => none
    | none => some s
  | .ChangePubKeyHash _ =>
    match findA s.account_ids id with
    | some _ => none
    | none => some s

/-- The state-changing operations the mempool state undergoes: admissions
(`add_tx`, `add_batch`), block assembly (`prepare_tx_for_block` with some
remaining budget), and one `UpdateNonces` entry. -/
inductive MempoolOp where
  | admitTx (tx : SignedZkSyncTx)
  | admitBatch (batch : SignedTxsBatch)
  | assemble (chunks_left : Nat)
  | update (id : AccountId) (u : AccountUpdate)
deriving DecidableEq, Repr

/-- The state after one `MempoolOp`; `none` when the operation never
completes (the `admitBatch` assertion panic, or the
`UpdateBalance`/`ChangePubKeyHash` self-deadlock). -/
def stepOp (s : MempoolState) : MempoolOp → Option MempoolState
  | .admitTx tx => some (s.add_tx tx).2
  | .admitBatch batch =>
    match s.add_batch batch with
    | some (_, s') => some s'
    | none => none
  | .assemble chunks_left => some (prepare_tx_for_block s chunks_left).2
  | .update id u => apply_update s id u

/-- The state after a sequence of `MempoolOp`s.  A step that never
completes freezes the state: the deadlocked (or aborted) task holds the
lock forever, so no later operation is applied and the data is last
observed as it stood before that step. -/
def runOps (s : MempoolState) : List MempoolOp → MempoolState
  | [] => s
  | op :: rest =>
    match stepOp s op with
    | some s' => runOps s' rest
    | none => s

/-- Trace entries for the storage calls `MempoolTransactionsHandler` makes
(connection acquisition and the mempool-schema writes). -/
inductive StorageOp where
  | accessStorage
  | beginTransaction
  | insertTx (tx : SignedZkSyncTx)
  | insertBatch (txs : List SignedZkSyncTx) (eth_signature : Option Nat)
  | commitTransaction
deriving DecidableEq, Repr

/-- Outcomes of the storage layer for one handler call: whether connection
acquisition, transaction begin, the insert and the commit succeed, and the
batch id `insert_batch` hands back. -/
structure StorageEnv where
  accessOk : Bool
  beginOk : Bool
  insertOk : Bool
  commitOk : Bool
  next_batch_id : Nat
deriving DecidableEq, Repr

/-- Embeds `MempoolTransactionsHandler::add_batch`: acquire a storage
connection, build the provisional batch with `batch_id = 0`, reject with
`BatchTooBig` when its chunk cost exceeds `max_block_size_chunks`, then
with `BatchWithdrawalsOverload` when it holds too many withdrawals, then
begin/insert/commit, set the returned batch id and run
`MempoolState::add_batch`.  Returns the reply, the resulting state and the
trace of storage calls; `none` embeds the `add_batch` assertion panic. -/
def handler_add_batch (env : StorageEnv) (max_block_size_chunks : Nat)
    (max_number_of_withdrawals_per_block : Nat) (s : MempoolState)
    (txs : List SignedZkSyncTx) (eth_signature : Option Nat) :
    Option (Except TxAddError Unit × MempoolState × List StorageOp) :=
  if !env.accessOk then
    some (.error .DbError, s, [.accessStorage])
  else
    let batch : SignedTxsBatch :=
      { txs := txs, batch_id := 0, eth_signature := eth_signature }
    if s.chunks_for_batch batch > max_block_size_chunks then
      some (.error .BatchTooBig, s, [.accessStorage])
    else
      let number_of_withdrawals := (txs.filter (fun tx => tx.tx.is_withdraw)).length
      if number_of_withdrawals > max_number_of_withdrawals_per_block then
        some (.error .BatchWithdrawalsOverload, s, [.accessStorage])
      else if !env.beginOk then
        some (.error .DbError, s, [.accessStorage, .beginTransaction])
      else if !env.insertOk then
        some (.error .DbError, s,
          [.accessStorage, .beginTransaction, .insertBatch txs eth_signature])
      else if !env.commitOk then
        some (.error .DbError, s,
          [.accessStorage, .beginTransaction, .insertBatch txs eth_signature,
           .commitTransaction])
      else
        match s.add_batch { batch with batch_id := env.next_batch_id } with
        | some (result, s') =>
          some (result, s',
            [.accessStorage, .beginTransaction, .insertBatch txs eth_signature,
             .commitTransaction])
        | none => none

/-- Embeds `Balancer::run` with the inbound requests given as a list: the
cyclic index iterator is carried explicitly, and each request is paired
with the outbound channel index it is sent to. -/
def balancerRun {α : Type} (n : Nat) (idx : Nat) : List α → List (Nat × α)
  | [] => []
  | request :: rest => (idx, request) :: balancerRun n ((idx + 1) % n) rest

/-- Embeds the dispatcher as a whole: requests are consumed starting at
channel index 0. -/
def balancerDispatch {α : Type} (n : Nat) (requests : List α) : List (Nat × α) :=
  balancerRun n 0 requests

/-- Summed chunk cost of a list of queue variants, read from state `s`
(whose nonce maps block assembly never changes while draining). -/
def txsChunks (s : MempoolState) (l : List SignedTxVariant) : Nat :=
  (l.map s.required_chunks).sum

/-- Condition under which one mempool operation cannot lower address `A`'s
recorded nonce: admissions and block assembly always qualify; a `Create`
overwriting `A` must carry a nonce at least the current one and a `Delete`
of `A` is allowed only when `A`'s nonce is already 0.  `UpdateBalance` and
`ChangePubKeyHash` need no condition: with the id absent they complete as
no-ops, and with the id present they deadlock before any write. -/
def nonceSafe (A : Address) (s : MempoolState) : MempoolOp → Prop
  | .update _ u =>
    match u with
    | .Create address n => address = A → s.nonce A ≤ n
    | .Delete address => address = A → s.nonce A = 0
    | .UpdateBalance _ => True
    | .ChangePubKeyHash _ => True
  | _ => True

/-- `nonceSafe` holding at every step of a sequence of operations, each
evaluated in the state the previous steps produced; past a step that
never completes, nothing further is required. -/
def nonceSafeSeq (A : Address) : MempoolState → List MempoolOp → Prop
  | _, [] => True
  | s, op :: rest =>
    nonceSafe A s op ∧
    (match stepOp s op with
     | some s' => nonceSafeSeq A s' rest
     | none => True)

/-- How many of the positions `a, a+1, …, a+K-1` fall on residue `w`
modulo `n`; the shape of per-worker request counts under round-robin. -/
def residCount (n w a K : Nat) : Nat :=
  (List.range K).countP (fun j => (a + j) % n == w)

theorem findA_insertA_self {β : Type} (m : List (Nat × β)) (k : Nat) (v : β) :
    findA (insertA m k v) k = some v := by
  induction m with
  | nil => simp [insertA, findA]
  | cons p rest ih =>
    obtain ⟨k', v'⟩ := p
    by_cases h : k' = k
    · simp [insertA, h, findA]
    · simp [insertA, h, findA, ih]

theorem findA_insertA_ne {β : Type} (m : List (Nat × β)) (k k' : Nat) (v : β)
    (h : k ≠ k') : findA (insertA m k v) k' = findA m k' := by
  induction m with
  | nil => simp [insertA, findA, h]
  | cons p rest ih =>
    obtain ⟨k'', v''⟩ := p
    by_cases h2 : k'' = k
    · subst h2; simp [insertA, findA, h]
    · simp only [insertA, if_neg h2, findA]
      split
      · rfl
      · exact ih

theorem findA_eraseA_ne {β : Type} (m : List (Nat × β)) (k k' : Nat)
    (h : k ≠ k') : findA (eraseA m k) k' = findA m k' := by
  induction m with
  | nil => simp [eraseA]
  | cons p rest ih =>
    obtain ⟨k'', v''⟩ := p
    by_cases h2 : k'' = k
    · subst h2; simp [eraseA, findA, h]
    · simp only [eraseA, if_neg h2, findA]
      split
      · rfl
      · exact ih

theorem add_tx_preserves_maps (s : MempoolState) (tx : SignedZkSyncTx) :
    (s.add_tx tx).2.account_nonces = s.account_nonces ∧
    (s.add_tx tx).2.account_ids = s.account_ids := by
  unfold MempoolState.add_tx
  split <;> simp

theorem add_batch_preserves_maps (s : MempoolState) (batch : SignedTxsBatch)
    (r : Except TxAddError Unit) (s' : MempoolState)
    (h : s.add_batch batch = some (r, s')) :
    s'.account_nonces = s.account_nonces ∧ s'.account_ids = s.account_ids := by
  unfold MempoolState.add_batch at h
  split at h
  · simp at h
  · split at h
    · simp only [Option.some.injEq, Prod.mk.injEq] at h
      obtain ⟨-, rfl⟩ := h
      exact ⟨rfl, rfl⟩
    · simp only [Option.some.injEq, Prod.mk.injEq] at h
      obtain ⟨-, rfl⟩ := h
      exact ⟨rfl, rfl⟩

theorem prepareGo_spec (s : MempoolState) (q : List SignedTxVariant) :
    ∀ (budget l : Nat) (taken remaining : List SignedTxVariant),
      prepareGo s budget q = (l, taken, remaining) →
      taken ++ remaining = q ∧
      txsChunks s taken ≤ budget ∧
      l = budget - txsChunks s taken ∧
      (match remaining with
       | [] => True
       | t :: _ => l < s.required_chunks t) := by
  induction q with
  | nil =>
    intro budget l taken remaining h
    simp only [prepareGo, Prod.mk.injEq] at h
    obtain ⟨rfl, rfl, rfl⟩ := h
    simp [txsChunks]
  | cons t rest ih =>
    intro budget l taken remaining h
    simp only [prepareGo] at h
    by_cases hc : budget ≥ s.required_chunks t
    · rw [if_pos hc] at h
      rcases hrec : prepareGo s (budget - s.required_chunks t) rest with ⟨l', tk, rm⟩
      rw [hrec] at h
      simp only [Prod.mk.injEq] at h
      obtain ⟨rfl, rfl, rfl⟩ := h
      obtain ⟨h1, h2, h3, h4⟩ := ih (budget - s.required_chunks t) l' tk rm hrec
      have hcons : txsChunks s (t :: tk) = s.required_chunks t + txsChunks s tk := by
        simp [txsChunks]
      refine ⟨by simp [h1], by omega, by omega, h4⟩
    · rw [if_neg hc] at h
      simp only [Prod.mk.injEq] at h
      obtain ⟨rfl, rfl, rfl⟩ := h
      refine ⟨rfl, by simp [txsChunks], by simp [txsChunks], ?_⟩
      simpa using Nat.lt_of_not_le hc

/-- C5: block assembly removes variants only from the front of the ready
queue: the returned `txs` are the popped prefix of the queue in original
order, the remaining queue is the untaken suffix in original order, and
when any element remains the front one was pushed back because its
required chunks exceed the remaining budget (first-miss stop; no later,
smaller element is considered). -/
theorem C5_front_pop_first_miss (s : MempoolState) (chunks_left : Nat) :
    (prepare_tx_for_block s chunks_left).1.2 ++
        (prepare_tx_for_block s chunks_left).2.ready_txs = s.ready_txs ∧
    (match (prepare_tx_for_block s chunks_left).2.ready_txs with
     | [] => True
     | t :: _ =>
       (prepare_tx_for_block s chunks_left).1.1 < s.required_chunks t) := by
  unfold prepare_tx_for_block
  rcases hrec : prepareGo s chunks_left s.ready_txs with ⟨l, taken, remaining⟩
  obtain ⟨h1, -, -, h4⟩ := prepareGo_spec s s.ready_txs chunks_left l taken remaining hrec
  exact ⟨h1, h4⟩

/-- C1: for a `GetBlock` proposal, provided the watcher honors its
contract (summed chunk cost of the returned priority ops at most
`max_block_size_chunks`), the summed chunks of the returned priority ops
plus the summed `required_chunks` of the returned tx variants — all
evaluated against the `account_nonces` map the assembly loop holds, which
it never modifies between pops — stay within `max_block_size_chunks`. -/
theorem C1_chunk_budget (max_block_size_chunks : Nat)
    (priority_ops : List PriorityOp) (s : MempoolState)
    (hwatch : prioChunks priority_ops ≤ max_block_size_chunks) :
    prioChunks
        (propose_new_block max_block_size_chunks priority_ops s).1.priority_ops +
      txsChunks s (propose_new_block max_block_size_chunks priority_ops s).1.txs ≤
      max_block_size_chunks := by
  unfold propose_new_block select_priority_ops prepare_tx_for_block
  rcases hrec : prepareGo s (max_block_size_chunks - prioChunks priority_ops)
      s.ready_txs with ⟨l, taken, remaining⟩
  obtain ⟨-, h2, -, -⟩ := prepareGo_spec s s.ready_txs _ l taken remaining hrec
  simp only [hrec]
  show prioChunks priority_ops + txsChunks s taken ≤ max_block_size_chunks
  omega

/-- C1 witness: max 10, one 4-chunk priority op, a 6-chunk transfer to a
new account at the front of the queue. -/
theorem C1_chunk_budget_witness :
    prioChunks [⟨4⟩] ≤ 10 ∧
    prioChunks (propose_new_block 10 [⟨4⟩]
        ⟨[], [], [.Tx ⟨.Transfer 1 2 0⟩]⟩).1.priority_ops +
      txsChunks ⟨[], [], [.Tx ⟨.Transfer 1 2 0⟩]⟩
        (propose_new_block 10 [⟨4⟩] ⟨[], [], [.Tx ⟨.Transfer 1 2 0⟩]⟩).1.txs ≤ 10 :=
  ⟨by decide,
   C1_chunk_budget 10 [⟨4⟩] ⟨[], [], [.Tx ⟨.Transfer 1 2 0⟩]⟩ (by decide)⟩

/-- C2: `add_tx` accepts exactly when `tx.nonce ≥ nonce(tx.sender)`, in
which case it appends `Tx tx` (the spec's `Single(tx)`) to the back of the
ready queue; otherwise it replies `NonceMismatch` and leaves the state —
in particular the ready queue — unchanged; and `nonce` reads
`account_nonces` with default 0 for absent addresses. -/
theorem C2_add_tx_spec (s : MempoolState) (tx : SignedZkSyncTx) :
    (tx.nonce ≥ s.nonce tx.account →
      s.add_tx tx =
        (.ok (), { s with ready_txs := s.ready_txs ++ [.Tx tx] })) ∧
    (tx.nonce < s.nonce tx.account →
      s.add_tx tx = (.error .NonceMismatch, s)) ∧
    (findA s.account_nonces tx.account = none → s.nonce tx.account = 0) := by
  refine ⟨fun h => ?_, fun h => ?_, fun h => ?_⟩
  · simp [MempoolState.add_tx, h]
  · rw [MempoolState.add_tx, if_neg (Nat.not_le.mpr h)]
  · simp [MempoolState.nonce, h]

/-- C2 witness: sender 5 has committed nonce 3; a nonce-3 withdrawal is
accepted and appended, a nonce-2 one is rejected; an absent address reads
nonce 0. -/
theorem C2_add_tx_spec_witness :
    MempoolState.add_tx ⟨[(5, 3)], [], []⟩ ⟨.Withdraw 5 3⟩ =
      (.ok (), ⟨[(5, 3)], [], [.Tx ⟨.Withdraw 5 3⟩]⟩) ∧
    MempoolState.add_tx ⟨[(5, 3)], [], []⟩ ⟨.Withdraw 5 2⟩ =
      (.error .NonceMismatch, ⟨[(5, 3)], [], []⟩) ∧
    MempoolState.nonce ⟨[(5, 3)], [], []⟩ 7 = 0 :=
  ⟨(C2_add_tx_spec ⟨[(5, 3)], [], []⟩ ⟨.Withdraw 5 3⟩).1 (by decide),
   (C2_add_tx_spec ⟨[(5, 3)], [], []⟩ ⟨.Withdraw 5 2⟩).2.1 (by decide),
   (C2_add_tx_spec ⟨[(5, 3)], [], []⟩ ⟨.Withdraw 7 0⟩).2.2 (by decide)⟩

/-- C7: a transfer costs `TransferOp::CHUNKS` exactly when the recipient
is a key of `account_nonces`, the larger `TransferToNewOp::CHUNKS`
otherwise, and a batch costs the sum of its members' per-transaction costs
under the same map. -/
theorem C7_transfer_two_costs (s : MempoolState) (sender to_addr : Address)
    (nonce : Nonce) (batch : SignedTxsBatch) :
    (containsA s.account_nonces to_addr = true →
      s.chunks_for_tx (.Transfer sender to_addr nonce) = TransferOp_CHUNKS) ∧
    (containsA s.account_nonces to_addr = false →
      s.chunks_for_tx (.Transfer sender to_addr nonce) = TransferToNewOp_CHUNKS) ∧
    TransferOp_CHUNKS < TransferToNewOp_CHUNKS ∧
    s.chunks_for_batch batch =
      (batch.txs.map (fun tx => s.chunks_for_tx tx.tx)).sum := by
  refine ⟨fun h => ?_, fun h => ?_, by decide, rfl⟩
  · simp [MempoolState.chunks_for_tx, h]
  · simp [MempoolState.chunks_for_tx, h]

/-- C7 witness: recipient 9 is known (cost 2), recipient 8 is not
(cost 6), and a two-member batch costs the sum 2 + 6. -/
theorem C7_transfer_two_costs_witness :
    MempoolState.chunks_for_tx
        { account_nonces := [(9, 0)], account_ids := [], ready_txs := [] }
        (.Transfer 1 9 0) = TransferOp_CHUNKS ∧
    MempoolState.chunks_for_tx
        { account_nonces := [(9, 0)], account_ids := [], ready_txs := [] }
        (.Transfer 1 8 0) = TransferToNewOp_CHUNKS ∧
    MempoolState.chunks_for_batch
        { account_nonces := [(9, 0)], account_ids := [], ready_txs := [] }
        { txs := [{ tx := .Transfer 1 9 0 }, { tx := .Transfer 1 8 0 }],
          batch_id := 1, eth_signature := none } = 8 :=
  ⟨(C7_transfer_two_costs _ 1 9 0
      { txs := [], batch_id := 1, eth_signature := none }).1 (by decide),
   (C7_transfer_two_costs _ 1 8 0
      { txs := [], batch_id := 1, eth_signature := none }).2.1 (by decide),
   by decide⟩

/-- C10: admission is frame-preserving on the nonce bookkeeping: `add_tx`
never changes `account_nonces` or `account_ids` (success or
`NonceMismatch` alike), and neither does `add_batch` on any of its
non-panicking outcomes. -/
theorem C10_admission_frame (s : MempoolState) (tx : SignedZkSyncTx)
    (batch : SignedTxsBatch) :
    ((s.add_tx tx).2.account_nonces = s.account_nonces ∧
     (s.add_tx tx).2.account_ids = s.account_ids) ∧
    (∀ (r : Except TxAddError Unit) (s' : MempoolState),
      s.add_batch batch = some (r, s') →
      s'.account_nonces = s.account_nonces ∧ s'.account_ids = s.account_ids) :=
  ⟨add_tx_preserves_maps s tx,
   fun r s' h => add_batch_preserves_maps s batch r s' h⟩

/-- C10 witness: a successful single admission and a successful batch
admission out of the same two-account state leave both maps intact. -/
theorem C10_admission_frame_witness :
    (MempoolState.add_tx
        { account_nonces := [(5, 3)], account_ids := [(1, 5)], ready_txs := [] }
        { tx := .Withdraw 5 3 }).2.account_nonces = [(5, 3)] ∧
    ∃ r s',
      MempoolState.add_batch
          { account_nonces := [(5, 3)], account_ids := [(1, 5)], ready_txs := [] }
          { txs := [{ tx := .Withdraw 5 4 }], batch_id := 1,
            eth_signature := none } = some (r, s') ∧
      s'.account_nonces = [(5, 3)] ∧ s'.account_ids = [(1, 5)] := by
  constructor
  · exact (C10_admission_frame
      { account_nonces := [(5, 3)], account_ids := [(1, 5)], ready_txs := [] }
      { tx := .Withdraw 5 3 }
      { txs := [], batch_id := 1, eth_signature := none }).1.1
  · refine ⟨.ok (), _, rfl, ?_⟩
    exact (C10_admission_frame
      { account_nonces := [(5, 3)], account_ids := [(1, 5)], ready_txs := [] }
      { tx := .Withdraw 5 3 }
      { txs := [{ tx := .Withdraw 5 4 }], batch_id := 1,
        eth_signature := none }).2 (.ok ()) _ rfl

/-- C8: the `ChangePubKeyHash` arm has exactly the effect of the
`UpdateBalance` arm (the two are token-identical), but neither performs
the overwrite the claim describes: at the failing input — id 1 present in
`account_ids` mapping to address 100, whose nonce 5 is present in
`account_nonces` — the task self-deadlocks re-acquiring the state lock
inside the `if let`, so `account_nonces[100]` is never overwritten with
7 and there is no successor state; only an absent id completes, as a
no-op. -/
theorem C8_cpkh_deadlock_no_overwrite :
    apply_update ⟨[(100, 5)], [(1, 100)], []⟩ 1 (.ChangePubKeyHash 7) =
      apply_update ⟨[(100, 5)], [(1, 100)], []⟩ 1 (.UpdateBalance 7) ∧
    apply_update ⟨[(100, 5)], [(1, 100)], []⟩ 1 (.ChangePubKeyHash 7) = none ∧
    apply_update ⟨[(100, 5)], [(1, 100)], []⟩ 2 (.ChangePubKeyHash 7) =
      some ⟨[(100, 5)], [(1, 100)], []⟩ := by decide

theorem prepare_preserves_maps (s : MempoolState) (chunks_left : Nat) :
    (prepare_tx_for_block s chunks_left).2.account_nonces = s.account_nonces ∧
    (prepare_tx_for_block s chunks_left).2.account_ids = s.account_ids := by
  rcases hrec : prepareGo s chunks_left s.ready_txs with ⟨l, tk, rm⟩
  simp [prepare_tx_for_block, hrec]

theorem stepOp_nonce_mono (A : Address) (s : MempoolState) (op : MempoolOp)
    (h : nonceSafe A s op) :
    ∀ s', stepOp s op = some s' → s.nonce A ≤ s'.nonce A := by
  intro s' hs
  cases op with
  | admitTx tx =>
    simp only [stepOp, Option.some.injEq] at hs
    subst hs
    have hm := add_tx_preserves_maps s tx
    simp [MempoolState.nonce, hm.1]
  | admitBatch batch =>
    simp only [stepOp] at hs
    cases hb : s.add_batch batch with
    | none => rw [hb] at hs; simp at hs
    | some p =>
      obtain ⟨r, s''⟩ := p
      rw [hb] at hs
      simp only [Option.some.injEq] at hs
      subst hs
      have hm := add_batch_preserves_maps s batch r s'' hb
      simp [MempoolState.nonce, hm.1]
  | assemble chunks_left =>
    simp only [stepOp, Option.some.injEq] at hs
    subst hs
    have hm := prepare_preserves_maps s chunks_left
    simp [MempoolState.nonce, hm.1]
  | update id u =>
    simp only [nonceSafe] at h
    cases u with
    | Create address n =>
      simp only [stepOp, apply_update, Option.some.injEq] at hs
      subst hs
      by_cases ha : address = A
      · subst ha
        simp only [MempoolState.nonce, findA_insertA_self]
        exact Nat.le_trans (h rfl) (by simp)
      · simp [MempoolState.nonce,
          findA_insertA_ne s.account_nonces address A n ha]
    | Delete address =>
      simp only [stepOp, apply_update, Option.some.injEq] at hs
      subst hs
      by_cases ha : address = A
      · subst ha
        rw [h rfl]
        exact Nat.zero_le _
      · simp [MempoolState.nonce,
          findA_eraseA_ne s.account_nonces address A ha]
    | UpdateBalance new_nonce =>
      simp only [stepOp, apply_update] at hs
      cases hfind : findA s.account_ids id with
      | some address => rw [hfind] at hs; simp at hs
      | none =>
        rw [hfind] at hs
        simp only [Option.some.injEq] at hs
        subst hs
        exact Nat.le_refl _
    | ChangePubKeyHash new_nonce =>
      simp only [stepOp, apply_update] at hs
      cases hfind : findA s.account_ids id with
      | some address => rw [hfind] at hs; simp at hs
      | none =>
        rw [hfind] at hs
        simp only [Option.some.injEq] at hs
        subst hs
        exact Nat.le_refl _

/-- C4 counterexample: Create(1,100,5) then Create(2,100,3) — both
completing through the single-lock `Create` arm — overwrite account 100's
recorded nonce from 5 down to 3, so over arbitrary `UpdateNonces` events
`account_nonces[A]` can decrease. -/
theorem C4_counterexample :
    (runOps ⟨[], [], []⟩ [.update 1 (.Create 100 5)]).nonce 100 = 5 ∧
    (runOps ⟨[], [], []⟩
        [.update 1 (.Create 100 5),
         .update 2 (.Create 100 3)]).nonce 100 = 3 := by decide

/-- C4 (amended): over any sequence of admissions, block assemblies and
`UpdateNonces` events, `account_nonces[A]` never decreases provided each
completing update event is non-lowering for `A` (`nonceSafe`): admissions
and assemblies qualify unconditionally; a `Create` overwriting `A` must
carry a nonce at least the current one and a `Delete` of `A` only fires at
nonce 0; `UpdateBalance`/`ChangePubKeyHash` events never lower any nonce —
with the id absent they complete as no-ops, and with the id present the
handler self-deadlocks before writing, freezing the state. -/
theorem C4_nonce_monotone (A : Address) (s : MempoolState)
    (ops : List MempoolOp) (h : nonceSafeSeq A s ops) :
    s.nonce A ≤ (runOps s ops).nonce A := by
  induction ops generalizing s with
  | nil => exact Nat.le_refl _
  | cons op rest ih =>
    obtain ⟨h1, h2⟩ := h
    cases hs : stepOp s op with
    | none => simp [runOps, hs]
    | some s' =>
      rw [hs] at h2
      have hrun : runOps s (op :: rest) = runOps s' rest := by
        simp [runOps, hs]
      rw [hrun]
      exact Nat.le_trans (stepOp_nonce_mono A s op h1 s' hs) (ih s' h2)

/-- C4 witness: an admission, a Create writing nonce 5 to address 100, an
UpdateBalance for an absent id (a completing no-op) and an UpdateBalance
for the present id 1 (which deadlocks and freezes the state) form a safe
sequence; nonce 100 rises from 0 to 5. -/
theorem C4_nonce_monotone_witness :
    MempoolState.nonce ⟨[], [], []⟩ 100 ≤
      (runOps ⟨[], [], []⟩
        [.admitTx ⟨.Withdraw 100 0⟩,
         .update 1 (.Create 100 5),
         .update 7 (.UpdateBalance 9),
         .update 1 (.UpdateBalance 9)]).nonce 100 := by
  apply C4_nonce_monotone
  exact ⟨trivial, fun _ => by decide, trivial, trivial, trivial⟩

/-- C3: the handler has no empty-batch rejection: with storage succeeding
and `insert_batch` returning id 1, a `NewBatch` with an empty `txs` list
passes the chunk and withdrawal checks, writes to storage (begin, insert
of the empty batch, commit), appends the empty batch to the ready queue
and replies `Ok` — never `EmptyBatch`. -/
theorem C3_empty_batch_admitted :
    handler_add_batch ⟨true, true, true, true, 1⟩ 10 2 ⟨[], [], []⟩ [] none =
      some (.ok (), ⟨[], [], [.Batch ⟨[], 1, none⟩]⟩,
        [.accessStorage, .beginTransaction, .insertBatch [] none,
         .commitTransaction]) := rfl

/-- C6 counterexample: the storage connection is acquired before the chunk
check (`db_pool.access_storage()` is the first await of
`MempoolTransactionsHandler::add_batch`), so when acquisition fails a
batch whose chunk cost 18 exceeds `max_block_size_chunks = 10` is answered
`DbError`, not `BatchTooBig`. -/
theorem C6_counterexample :
    MempoolState.chunks_for_batch ⟨[], [], []⟩
        ⟨[⟨.Transfer 1 101 0⟩, ⟨.Transfer 1 102 0⟩, ⟨.Transfer 1 103 0⟩],
          0, none⟩ > 10 ∧
    handler_add_batch ⟨false, true, true, true, 1⟩ 10 2 ⟨[], [], []⟩
        [⟨.Transfer 1 101 0⟩, ⟨.Transfer 1 102 0⟩, ⟨.Transfer 1 103 0⟩] none =
      some (.error .DbError, ⟨[], [], []⟩, [.accessStorage]) :=
  ⟨by decide, rfl⟩

/-- C6 (amended): provided the storage-connection acquisition succeeds,
any `NewBatch` whose `chunks_for_batch` against the current map exceeds
`max_block_size_chunks` is answered `BatchTooBig`, with no storage write —
no `begin`, `insert_batch` or `commit` in the trace — and with the state
unchanged; the check precedes the withdrawal-count check, as the reply is
`BatchTooBig` for every such batch regardless of its withdrawal count. -/
theorem C6_batch_too_big (env : StorageEnv) (max_block_size_chunks : Nat)
    (max_number_of_withdrawals_per_block : Nat) (s : MempoolState)
    (txs : List SignedZkSyncTx) (eth_signature : Option Nat)
    (hacc : env.accessOk = true)
    (hbig : s.chunks_for_batch ⟨txs, 0, eth_signature⟩ > max_block_size_chunks) :
    handler_add_batch env max_block_size_chunks
        max_number_of_withdrawals_per_block s txs eth_signature =
      some (.error .BatchTooBig, s, [.accessStorage]) := by
  simp [handler_add_batch, hacc, hbig]

/-- C6 witness: a batch of three withdrawals (chunk cost 18 > 10, and 3
withdrawals > the cap of 2) is still answered `BatchTooBig`, showing the
chunk check fires first. -/
theorem C6_batch_too_big_witness :
    handler_add_batch ⟨true, true, true, true, 1⟩ 10 2 ⟨[], [], []⟩
        [⟨.Withdraw 1 0⟩, ⟨.Withdraw 2 0⟩, ⟨.Withdraw 3 0⟩] none =
      some (.error .BatchTooBig, ⟨[], [], []⟩, [.accessStorage]) :=
  C6_batch_too_big ⟨true, true, true, true, 1⟩ 10 2 ⟨[], [], []⟩
    [⟨.Withdraw 1 0⟩, ⟨.Withdraw 2 0⟩, ⟨.Withdraw 3 0⟩] none
    (by decide) (by decide)

theorem residCount_one (n w a : Nat) :
    residCount n w a 1 = if a % n == w then 1 else 0 := by
  unfold residCount
  rw [show List.range 1 = [0] from rfl, List.countP_cons, List.countP_nil]
  simp

theorem residCount_add (n w a K1 K2 : Nat) :
    residCount n w a (K1 + K2) =
      residCount n w a K1 + residCount n w (a + K1) K2 := by
  unfold residCount
  rw [List.range_add, List.countP_append, List.countP_map]
  congr 1
  apply List.countP_congr
  intro j _
  simp only [Function.comp]
  rw [Nat.add_assoc]

theorem residCount_zero_len (n w a : Nat) : residCount n w a 0 = 0 := by
  simp [residCount]

theorem countP_beq_range (n w : Nat) (hw : w < n) :
    (List.range n).countP (fun j => j == w) = 1 := by
  induction n with
  | zero => omega
  | succ m ih =>
    rw [List.range_succ, List.countP_append]
    by_cases h : w < m
    · rw [ih h]
      have hne : (m == w) = false := by simp; omega
      simp [List.countP_cons, hne]
    · have hw' : w = m := by omega
      subst hw'
      have h0 : (List.range w).countP (fun j => j == w) = 0 := by
        rw [List.countP_eq_zero]
        intro j hj
        simp only [List.mem_range] at hj
        simp
        omega
      rw [h0]
      simp [List.countP_cons]

theorem residCount_full (n w : Nat) (hw : w < n) (a : Nat) :
    residCount n w a n = 1 := by
  induction a with
  | zero =>
    unfold residCount
    rw [List.countP_congr (q := fun j => j == w)]
    · exact countP_beq_range n w hw
    · intro j hj
      simp only [List.mem_range] at hj
      simp [Nat.mod_eq_of_lt hj]
  | succ a ih =>
    have hn : 0 < n := by omega
    have e1 : residCount n w a (n + 1) =
        residCount n w a n + residCount n w (a + n) 1 := residCount_add n w a n 1
    have e2 : residCount n w a (n + 1) =
        residCount n w a 1 + residCount n w (a + 1) n := by
      rw [show n + 1 = 1 + n by omega]
      exact residCount_add n w a 1 n
    rw [residCount_one] at e2
    rw [residCount_one, Nat.add_mod_right] at e1
    omega

theorem residCount_le_of_le (n w a : Nat) {K1 K2 : Nat} (h : K1 ≤ K2) :
    residCount n w a K1 ≤ residCount n w a K2 := by
  have e := residCount_add n w a K1 (K2 - K1)
  rw [Nat.add_sub_cancel' h] at e
  omega

theorem residCount_mul (n w : Nat) (hw : w < n) (a q : Nat) :
    residCount n w a (n * q) = q := by
  induction q generalizing a with
  | zero => simp [residCount]
  | succ q ih =>
    have e : n * (q + 1) = n + n * q := by ring
    rw [e, residCount_add, residCount_full n w hw a, ih (a + n)]
    omega

theorem residCount_floor_ceil (n w : Nat) (hn : 0 < n) (hw : w < n)
    (a K : Nat) :
    residCount n w a K = K / n ∨ residCount n w a K = (K + n - 1) / n := by
  have hdecomp : K = n * (K / n) + K % n := (Nat.div_add_mod K n).symm
  have e1 : residCount n w a K =
      residCount n w a (n * (K / n)) + residCount n w (a + n * (K / n)) (K % n) := by
    conv_lhs => rw [hdecomp]
    exact residCount_add n w a (n * (K / n)) (K % n)
  rw [residCount_mul n w hw a (K / n)] at e1
  have hmodlt : K % n < n := Nat.mod_lt K hn
  have hle1 : residCount n w (a + n * (K / n)) (K % n) ≤ 1 := by
    calc residCount n w (a + n * (K / n)) (K % n)
        ≤ residCount n w (a + n * (K / n)) n :=
          residCount_le_of_le n w _ (Nat.le_of_lt hmodlt)
      _ = 1 := residCount_full n w hw _
  rcases Nat.le_one_iff_eq_zero_or_eq_one.mp hle1 with h0 | h1
  · left
    omega
  · right
    have hr : K % n ≠ 0 := by
      intro hz
      rw [hz, residCount_zero_len] at h1
      omega
    have hceil : (K + n - 1) / n = K / n + 1 := by
      have hsplit : K + n - 1 = n * (K / n) + (K % n + n - 1) := by omega
      rw [hsplit, Nat.mul_add_div hn]
      have hdiv1 : (K % n + n - 1) / n = 1 := by
        apply Nat.div_eq_of_lt_le
        · omega
        · omega
      omega
    rw [e1, h1, hceil]

theorem balancerRun_map_fst {α : Type} (n : Nat) (hn : 0 < n) :
    ∀ (requests : List α) (idx : Nat), idx < n →
      (balancerRun n idx requests).map Prod.fst =
        (List.range requests.length).map (fun i => (idx + i) % n) := by
  intro requests
  induction requests with
  | nil => intro idx _; simp [balancerRun]
  | cons r rest ih =>
    intro idx hidx
    have h2 : (idx + 1) % n < n := Nat.mod_lt _ hn
    simp only [balancerRun, List.map_cons, List.length_cons,
      List.range_succ_eq_map, List.map_map]
    rw [ih ((idx + 1) % n) h2]
    rw [show (idx + 0) % n = idx from by rw [Nat.add_zero, Nat.mod_eq_of_lt hidx]]
    have htail : (fun i => ((idx + 1) % n + i) % n) =
        ((fun i => (idx + i) % n) ∘ Nat.succ) := by
      funext j
      simp only [Function.comp]
      rw [Nat.mod_add_mod]
      congr 1
      omega
    rw [htail]

theorem balancerRun_map_snd {α : Type} (n : Nat) :
    ∀ (requests : List α) (idx : Nat),
      (balancerRun n idx requests).map Prod.snd = requests := by
  intro requests
  induction requests with
  | nil => intro idx; simp [balancerRun]
  | cons r rest ih =>
    intro idx
    simp only [balancerRun, List.map_cons, ih]

/-- C9: the dispatcher is round-robin starting at channel 0: the list of
channel indices chosen for the inbound requests, in order, is
`i % n` for `i = 0, 1, …`, each paired with the corresponding request;
consequently over any fully received window of `K ≥ n` consecutive
requests, the number sent to worker `w` is either `⌊K/n⌋` or `⌈K/n⌉`. -/
theorem C9_round_robin {α : Type} (n : Nat) (requests : List α)
    (hn : 0 < n) :
    ((balancerDispatch n requests).map Prod.fst =
        (List.range requests.length).map (fun i => i % n) ∧
      (balancerDispatch n requests).map Prod.snd = requests) ∧
    (∀ a K w, n ≤ K → a + K ≤ requests.length → w < n →
      (((balancerDispatch n requests).drop a).take K).countP
          (fun p => p.1 == w) = K / n ∨
      (((balancerDispatch n requests).drop a).take K).countP
          (fun p => p.1 == w) = (K + n - 1) / n) := by
  have hfst : (balancerDispatch n requests).map Prod.fst =
      (List.range requests.length).map (fun i => i % n) := by
    rw [balancerDispatch, balancerRun_map_fst n hn requests 0 hn]
    congr 1
    funext i
    rw [Nat.zero_add]
  refine ⟨⟨hfst, balancerRun_map_snd n requests 0⟩, fun a K w hKn haK hw => ?_⟩
  have hwin : (((balancerDispatch n requests).drop a).take K).map Prod.fst =
      (List.range K).map (fun j => (a + j) % n) := by
    rw [List.map_take, List.map_drop, hfst]
    obtain ⟨m, hm⟩ : ∃ m, requests.length = a + m :=
      ⟨requests.length - a, by omega⟩
    have hKm : K ≤ m := by omega
    rw [hm, List.range_add, List.map_append, List.map_map,
      List.drop_left' (by simp), ← List.map_take, List.take_range]
    rw [show min K m = K from by omega]
    rfl
  have hcount : (((balancerDispatch n requests).drop a).take K).countP
      (fun p => p.1 == w) = residCount n w a K := by
    calc (((balancerDispatch n requests).drop a).take K).countP
          (fun p => p.1 == w)
        = (((balancerDispatch n requests).drop a).take K).countP
            ((fun i => i == w) ∘ Prod.fst) := rfl
      _ = ((((balancerDispatch n requests).drop a).take K).map
            Prod.fst).countP (fun i => i == w) :=
          (List.countP_map (fun i => i == w) Prod.fst _).symm
      _ = ((List.range K).map (fun j => (a + j) % n)).countP
            (fun i => i == w) := by rw [hwin]
      _ = (List.range K).countP
            ((fun i => i == w) ∘ (fun j => (a + j) % n)) :=
          List.countP_map (fun i => i == w) (fun j => (a + j) % n) _
      _ = residCount n w a K := rfl
  rw [hcount]
  exact residCount_floor_ceil n w hn hw a K

/-- C9 witness: two workers, five requests, window of the first four:
worker 0 receives 2 = ⌊4/2⌋ of them. -/
theorem C9_round_robin_witness :
    ((balancerDispatch 2 [10, 20, 30, 40, 50]).map Prod.fst =
        (List.range 5).map (fun i => i % 2) ∧
      (balancerDispatch 2 [10, 20, 30, 40, 50]).map Prod.snd =
        [10, 20, 30, 40, 50]) ∧
    ((((balancerDispatch 2 [10, 20, 30, 40, 50]).drop 0).take 4).countP
        (fun p => p.1 == 0) = 4 / 2 ∨
      (((balancerDispatch 2 [10, 20, 30, 40, 50]).drop 0).take 4).countP
        (fun p => p.1 == 0) = (4 + 2 - 1) / 2) :=
  ⟨(C9_round_robin 2 [10, 20, 30, 40, 50] (by decide)).1,
   (C9_round_robin 2 [10, 20, 30, 40, 50] (by decide)).2 0 4 0
     (by decide) (by decide) (by decide)⟩

end ZkMempool
